import Mathlib

/-!
# Verification of the heuristic code-analysis engine of `src/App.js`

This file shallowly embeds the pure analysis core of the repository's single
source file `src/App.js` (a "Legacy Code Documentation Generator"):

* `detectLanguage`        — ordered-rule language detection  (source lines 236-246)
* line/function counting and the complexity classification   (source lines 207-231)
* `analyzeIssues`         — the seven-check issue scanner    (source lines 251-304)
* `calculateQualityScore` — the explainable quality scorer   (source lines 309-347)
* `highlightCode`         — the sequential-substitution highlighter (lines 354-394)

Strings are modelled as `List Char`.  JavaScript regular-expression operations
(`String.match` with `/g`, `String.replace` with `/g`, `RegExp.test`,
`String.split`) are embedded as explicit left-to-right scanners that reproduce
the exact semantics of the concrete regular expressions appearing in the
source: leftmost match, alternatives tried in written order, greedy/lazy
quantifiers as written, `\b` word boundaries over `[A-Za-z0-9_]`, and no
re-scanning of replacement text within one pass.  Recursion that consumes a
computed suffix uses an explicit fuel argument so that every definition
reduces inside the kernel; the public wrappers pass fuel `length + 1`, which
is never exhausted because every step consumes at least one character.

JavaScript numbers in the scorer are idealised as exact rationals (`ℚ`) with
`Math.round x = ⌊x + 1/2⌋`; the properties proved about the scorer are
robust to this idealisation because every score is clamped by `min`/`max`.
-/

namespace CodeAnalysis

/-! ## Character classes (JS `\b` boundaries use the word class `[A-Za-z0-9_]`) -/

def isWordCh (c : Char) : Bool :=
  ('A' ≤ c && c ≤ 'Z') || ('a' ≤ c && c ≤ 'z') || ('0' ≤ c && c ≤ '9') || c == '_'

def isDigitCh (c : Char) : Bool := '0' ≤ c && c ≤ '9'

/-- ASCII lowercase; `String.prototype.toLowerCase` restricted to ASCII, which
is all the detector's patterns need. -/
def toLowerAscii (c : Char) : Char :=
  if 'A' ≤ c && c ≤ 'Z' then Char.ofNat (c.toNat + 32) else c

def lowerL (s : List Char) : List Char := s.map toLowerAscii

/-- ASCII whitespace, for the `\s*` in `gets\s*\(` and `==\s*null`. -/
def isWsCh (c : Char) : Bool :=
  c == ' ' || c == '\t' || c == '\n' || c == '\r' || c == Char.ofNat 11 || c == Char.ofNat 12

/-- The backtick character (written via its code point). -/
def backtickCh : Char := Char.ofNat 96

/-! ## Basic string operations -/

/-- Global single-character replacement, i.e. `s.replace(/c/g, rep)`. -/
def replaceCh (c : Char) (rep : List Char) : List Char → List Char
  | [] => []
  | x :: xs => (if x = c then rep else [x]) ++ replaceCh c rep xs

/-- `esc` from `highlightCode` (source line 358):
`s.replace(/&/g,'&amp;').replace(/</g,'&lt;').replace(/>/g,'&gt;')`. -/
def escL (s : List Char) : List Char :=
  replaceCh '>' ("&gt;".data) (replaceCh '<' ("&lt;".data) (replaceCh '&' ("&amp;".data) s))

/-- `String.prototype.split(sep)` for a single-character separator:
`''.split('\n') = ['']`, and every separator opens a new (possibly empty)
segment. -/
def splitOnCh (sep : Char) : List Char → List (List Char)
  | [] => [[]]
  | c :: cs =>
    if c = sep then [] :: splitOnCh sep cs
    else
      match splitOnCh sep cs with
      | h :: t => (c :: h) :: t
      | [] => [[c]]

/-- `text.split('\n').length` for non-empty text (callers guard emptiness). -/
def lineCount (text : List Char) : Nat := (splitOnCh '\n' text).length

/-- Substring occurrence test (`RegExp.test` for a literal pattern). -/
def containsSeq (p : List Char) : List Char → Bool
  | [] => p.isPrefixOf []
  | c :: cs => p.isPrefixOf (c :: cs) || containsSeq p cs

/-- Split a list at the first occurrence of character `q`:
`findCh q s = some (a, b)` with `s = a ++ q :: b` and `q ∉ a`. -/
def findCh (q : Char) : List Char → Option (List Char × List Char)
  | [] => none
  | c :: cs =>
    if c = q then some ([], cs)
    else (findCh q cs).map (fun pr => (c :: pr.1, pr.2))

/-- Split at the first occurrence of the two-character sequence `[a, b]`:
`findSub2 a b s = some (p, r)` with `s = p ++ a :: b :: r`, first occurrence. -/
def findSub2 (a b : Char) : List Char → Option (List Char × List Char)
  | [] => none
  | c :: cs =>
    if c = a ∧ cs.head? = some b then some ([], cs.tail)
    else (findSub2 a b cs).map (fun pr => (c :: pr.1, pr.2))

/-! ## Counting non-overlapping matches of an alternation of literal patterns

`text.match(/p1|p2|.../g)` count: scan left to right; at each position the
first alternative (in written order) that matches wins, the match is consumed,
and scanning resumes after it. -/

/-- First pattern of `pats` (in order) that is a prefix of `s`; returns its
length. -/
def firstAlt (pats : List (List Char)) (s : List Char) : Option Nat :=
  match pats with
  | [] => none
  | p :: ps => if p ≠ [] ∧ p.isPrefixOf s then some p.length else firstAlt ps s

def countAltGo (pats : List (List Char)) : Nat → List Char → Nat
  | 0, _ => 0
  | _ + 1, [] => 0
  | f + 1, c :: cs =>
    match firstAlt pats (c :: cs) with
    | some len => 1 + countAltGo pats f ((c :: cs).drop len)
    | none => countAltGo pats f cs

def countAlt (pats : List (List Char)) (s : List Char) : Nat :=
  countAltGo pats (s.length + 1) s

/-- `(text.match(/TODO|FIXME|XXX/gi) || []).length` (source line 256):
case-insensitive, so both pattern and text are lowered. -/
def todoCount (text : List Char) : Nat :=
  countAlt ["todo".data, "fixme".data, "xxx".data] (lowerL text)

/-- `(text.match(/\/\*|\*\/|\/\/|# /g) || []).length` (source lines 260, 311). -/
def commentTokenCount (text : List Char) : Nat :=
  countAlt ["/*".data, "*/".data, "//".data, "# ".data] text

/-- `code.match(/function|def |public |private |protected |class /g)` count
(source line 210). -/
def functionCount (text : List Char) : Nat :=
  countAlt ["function".data, "def ".data, "public ".data, "private ".data,
            "protected ".data, "class ".data] text

/-! ## Word-boundary tests (`RegExp.test` for `\b word \b` patterns)

All the bounded words used by the source start and end with word characters,
so the leading `\b` holds exactly when the previous character is not a word
character (or we are at the start), and the trailing `\b` holds exactly when
the next character is not a word character (or we are at the end). -/

def boundaryAfter (rest : List Char) : Bool :=
  match rest with
  | [] => true
  | x :: _ => !isWordCh x

def wordTestGo (w : List Char) : Bool → List Char → Bool
  | _, [] => false
  | pw, c :: cs =>
    (!pw && w.isPrefixOf (c :: cs) && boundaryAfter ((c :: cs).drop w.length))
      || wordTestGo w (isWordCh c) cs

/-- `new RegExp('\\b' + w + '\\b').test(s)` for a word `w` that starts and
ends with word characters. -/
def wordTest (w : List Char) (s : List Char) : Bool := wordTestGo w false s

/-! ## The magic-number scanner (source line 267)

`text.match(/[^A-Za-z0-9_](?:[2-9][0-9]?|[1-9][0-9]{2,})[^A-Za-z0-9_]/g)`:
a non-word character, then either a digit 2-9 with an optional second digit,
or a digit 1-9 followed by at least two more digits (greedy, with the JS
backtracking behaviour reproduced below), then a non-word character.  All
consumed characters belong to the match; scanning resumes after it. -/

/-- Try the numeric body plus closing non-word character at the start of `cs`
(the leading non-word character has already been consumed).  Returns the rest
of the input after the full match, the closing character included in the
match (the JS `lastIndex` moves past it, so matches never overlap). -/
def magicTail : List Char → Option (List Char)
  | [] => none
  | d :: cs1 =>
    if '2' ≤ d ∧ d ≤ '9' then
      -- first alternative [2-9][0-9]? with greedy optional digit
      match cs1 with
      | e :: x :: r =>
        if isDigitCh e then
          if !isWordCh x then some r
          else
            -- closing after just [2-9] would have to be the digit e: fails;
            -- fall through to the second alternative
            magicLong d cs1
        else if !isWordCh e then some (x :: r) else magicLong d cs1
      | [e] =>
        if isDigitCh e then magicLong d cs1
        else if !isWordCh e then some [] else magicLong d cs1
      | [] => magicLong d cs1
    else if '1' ≤ d ∧ d ≤ '9' then magicLong d cs1
    else none
where
  /-- Second alternative `[1-9][0-9]{2,}` followed by a non-word character.
  The digit run is maximal; shortening it under backtracking can never
  succeed because the closing character would be a digit. -/
  magicLong (_d : Char) (cs1 : List Char) : Option (List Char) :=
    let ds := cs1.takeWhile isDigitCh
    let rest := cs1.dropWhile isDigitCh
    if 2 ≤ ds.length then
      match rest with
      | x :: r => if !isWordCh x then some r else none
      | [] => none
    else none

def magicGo : Nat → List Char → Nat
  | 0, _ => 0
  | _ + 1, [] => 0
  | f + 1, c :: cs =>
    if !isWordCh c then
      match magicTail cs with
      | some rest => 1 + magicGo f rest
      | none => magicGo f cs
    else magicGo f cs

def magicCount (text : List Char) : Nat := magicGo (text.length + 1) text

/-! ## Remaining per-check helpers of `analyzeIssues` -/

/-- `/auto_ptr|register|gets\s*\(/i.test(text)` (source line 273). -/
def getsCallAt (s : List Char) : Bool :=
  "gets".data.isPrefixOf s && ((s.drop 4).dropWhile isWsCh).head? = some '('

def existsPos (p : List Char → Bool) : List Char → Bool
  | [] => p []
  | c :: cs => p (c :: cs) || existsPos p cs

def hasDeprecated (text : List Char) : Bool :=
  let l := lowerL text
  containsSeq "auto_ptr".data l || containsSeq "register".data l || existsPos getsCallAt l

/-- `/null|NULL|None/.test(text)` (source line 278), case-sensitive. -/
def hasNull (text : List Char) : Bool :=
  containsSeq "null".data text || containsSeq "NULL".data text ||
    containsSeq "None".data text

/-- One position of `==\s*null` / `!=\s*null`. -/
def opNullAt (op : List Char) (s : List Char) : Bool :=
  op.isPrefixOf s && ("null".data.isPrefixOf ((s.drop op.length).dropWhile isWsCh))

/-- `/==\s*null|!=\s*null|is not None|is None/.test(text)` (source line 279). -/
def hasNullChecks (text : List Char) : Bool :=
  existsPos (opNullAt "==".data) text || existsPos (opNullAt "!=".data) text ||
    containsSeq "is not None".data text || containsSeq "is None".data text

/-- One line of the deep-nesting loop (source lines 288-292): a line matching
`\b(for|while|if|switch)\b` increments the depth, then a line containing `}`
or matching `\bend\b` decrements it clamped at zero (`Nat` subtraction models
`Math.max(0, depth - 1)`), then the running maximum is updated. -/
def hasNestKw (l : List Char) : Bool :=
  wordTest "for".data l || wordTest "while".data l || wordTest "if".data l ||
    wordTest "switch".data l

def hasCloser (l : List Char) : Bool :=
  l.contains '}' || wordTest "end".data l

def nestStep (s : Nat × Nat) (l : List Char) : Nat × Nat :=
  let d1 := if hasNestKw l then s.1 + 1 else s.1
  let d2 := if hasCloser l then d1 - 1 else d1
  (d2, max s.2 d2)

def maxNestingDepth (text : List Char) : Nat :=
  ((splitOnCh '\n' text).foldl nestStep (0, 0)).2

/-! ## Long-function fragments (source line 298)

`text.split(/\bfunction\b|\bdef\b|\bpublic\b|\bprivate\b/)`: the text is cut
at every word-bounded occurrence of one of the four keywords (delimiters
discarded), and fragments longer than 500 characters are counted. -/

def splitKwAlt (pw : Bool) (s : List Char) : Option Nat :=
  if pw then none
  else
    let try1 := fun (w : List Char) =>
      w.isPrefixOf s && boundaryAfter (s.drop w.length)
    if try1 "function".data then some 8
    else if try1 "def".data then some 3
    else if try1 "public".data then some 6
    else if try1 "private".data then some 7
    else none

def splitKwGo : Nat → Bool → List Char → List Char → List (List Char)
  | 0, _, acc, _ => [acc.reverse]
  | _ + 1, _, acc, [] => [acc.reverse]
  | f + 1, pw, acc, c :: cs =>
    match splitKwAlt pw (c :: cs) with
    | some len => acc.reverse :: splitKwGo f true [] ((c :: cs).drop len)
    | none => splitKwGo f (isWordCh c) (c :: acc) cs

def longFunctionCount (text : List Char) : Nat :=
  ((splitKwGo (text.length + 1) false [] text).filter (fun s => 500 < s.length)).length

/-! ## The issue scanner `analyzeIssues` (source lines 251-304)

The source pushes onto an array in a fixed order; this is modelled as the
concatenation of conditional singleton lists, one per check, in the same
order. -/

structure Issue where
  type : String
  detail : String
deriving DecidableEq, Repr

def analyzeIssues (text : List Char) : List Issue :=
  if text = [] then []
  else
    (if 0 < todoCount text then
        [⟨"TODOs", toString (todoCount text) ++ " TODO/FIXME/XXX markers"⟩] else [])
    ++ (if commentTokenCount text < max 1 (lineCount text / 10) then
        [⟨"Missing Comments",
          toString (commentTokenCount text) ++ " comments for " ++
            toString (lineCount text) ++ " lines"⟩] else [])
    ++ (if 0 < magicCount text then
        [⟨"Magic Numbers", toString (magicCount text) ++ " suspicious numeric literals"⟩]
       else [])
    ++ (if hasDeprecated text then
        [⟨"Deprecated patterns", "Use of deprecated/unsafe APIs detected"⟩] else [])
    ++ (if hasNull text ∧ ¬ hasNullChecks text then
        [⟨"Null checks", "Possible missing null checks"⟩] else [])
    ++ (if 4 ≤ maxNestingDepth text then
        [⟨"Deep nesting", "Max nesting depth ~" ++ toString (maxNestingDepth text)⟩]
       else [])
    ++ (if 0 < longFunctionCount text then
        [⟨"Long functions", toString (longFunctionCount text) ++ " very long function(s) detected"⟩]
       else [])

/-! ## Structural stats and complexity (source lines 207-231) -/

/-- The two sequential `if` statements of the real-time analysis effect:
the `High` test runs last and overrides `Medium`. -/
def complexityOf (lines functions : Nat) : String :=
  let c1 := if 50 < lines ∨ 5 < functions then "Medium" else "Low"
  if 100 < lines ∨ 10 < functions then "High" else c1

def complexityOfText (text : List Char) : String :=
  complexityOf (lineCount text) (functionCount text)

/-! ## Language detection (source lines 236-246) -/

def detectLanguage (codeText : List Char) (language : String) : String :=
  if codeText = [] then language
  else
    let lower := lowerL codeText
    if wordTest "def".data lower || wordTest "import".data lower then "python"
    else if wordTest "function".data lower || wordTest "const".data lower ||
        wordTest "let".data lower then "javascript"
    else if wordTest "public class".data lower || wordTest "private".data lower ||
        wordTest "throws".data lower then "java"
    else if wordTest "using".data lower || wordTest "namespace".data lower ||
        wordTest "console.writeline".data lower then "csharp"
    else if containsSeq "#include".data lower || containsSeq "std::".data lower then "cpp"
    else if containsSeq "<?php".data lower || wordTest "echo".data lower then "php"
    else language

/-! ## The quality scorer `calculateQualityScore` (source lines 309-347)

JS floating-point arithmetic is idealised as exact rational arithmetic with
`Math.round x = ⌊x + 1/2⌋` (exact for the non-negative values arising here). -/

def jsRound (q : ℚ) : ℤ := ⌊q + 1/2⌋

def countType (k : String) (issues : List Issue) : Nat :=
  issues.countP (fun i => i.type == k)

def nestingPenaltyOf (issues : List Issue) : ℤ :=
  min 40 ((countType "Deep nesting" issues : ℤ) * 10)

def longFuncPenaltyOf (issues : List Issue) : ℤ :=
  min 30 ((countType "Long functions" issues : ℤ) * 10)

def magicPenaltyOf (issues : List Issue) : ℤ :=
  min 40 ((countType "Magic Numbers" issues : ℤ) * 8)

def complexityPenaltyOf (complexity : String) : ℤ :=
  if complexity = "High" then 30 else if complexity = "Medium" then 15 else 5

structure QualityReport where
  maintainability : ℤ
  commentScore : ℤ
  complexityScore : ℤ
  clarityScore : ℤ
  docCompleteness : ℤ
  risk : ℤ
deriving DecidableEq, Repr

/-- `commentScore = Math.min(100, Math.round((commentCount / Math.max(1, lines)) * 100 * 1.2))`. -/
def commentScoreOf (codeText : List Char) : ℤ :=
  let lines : Nat := if codeText = [] then 0 else lineCount codeText
  min 100 (jsRound (((commentTokenCount codeText : ℚ) / ((max 1 lines : Nat) : ℚ)) * 100 * (6/5)))

/-- `complexityScore = Math.max(10, 100 - complexityPenalty - nestingPenalty - longFuncPenalty)`. -/
def complexityScoreOf (foundIssues : List Issue) (complexity : String) : ℤ :=
  max 10 (100 - complexityPenaltyOf complexity - nestingPenaltyOf foundIssues -
    longFuncPenaltyOf foundIssues)

/-- `missingComments = issues.some(i => i.type === 'Missing Comments') ? 25 : 0`. -/
def missingCommentsPenaltyOf (foundIssues : List Issue) : ℤ :=
  if foundIssues.any (fun i => i.type == "Missing Comments") then 25 else 0

/-- `clarityScore = Math.max(10, 100 - magicPenalty - missingComments)`. -/
def clarityScoreOf (foundIssues : List Issue) : ℤ :=
  max 10 (100 - magicPenaltyOf foundIssues - missingCommentsPenaltyOf foundIssues)

/-- `maintainability = Math.round((commentScore + complexityScore + clarityScore) / 3)`. -/
def maintainabilityOf (codeText : List Char) (foundIssues : List Issue)
    (complexity : String) : ℤ :=
  jsRound (((commentScoreOf codeText + complexityScoreOf foundIssues complexity +
    clarityScoreOf foundIssues : ℤ) : ℚ) / 3)

/-- `docCompleteness = Math.min(100, Math.round(commentCount * 5 + docPresence))`. -/
def docCompletenessOf (codeText docText : List Char) : ℤ :=
  let docPresence : ℤ := if docText.dropWhile isWsCh ≠ [] then 30 else 0
  min 100 (jsRound (((commentTokenCount codeText : ℕ) * 5 : ℚ) + (docPresence : ℚ)))

/-- `risk = Math.min(100, Math.round(issueCount * 15 + complexityPenalty))`. -/
def riskOf (foundIssues : List Issue) (complexity : String) : ℤ :=
  min 100 (jsRound (((foundIssues.length : ℕ) * 15 : ℚ) + (complexityPenaltyOf complexity : ℚ)))

def calculateQualityScore (codeText : List Char) (foundIssues : List Issue)
    (docText : List Char) (complexity : String) : QualityReport :=
  { maintainability := maintainabilityOf codeText foundIssues complexity
    commentScore := commentScoreOf codeText
    complexityScore := complexityScoreOf foundIssues complexity
    clarityScore := clarityScoreOf foundIssues
    docCompleteness := docCompletenessOf codeText docText
    risk := riskOf foundIssues complexity }

/-! ## The highlighter `highlightCode` (source lines 354-394)

Five strictly sequential passes over one working string: HTML-escape, then
global regex replacements wrapping comments, string literals, numbers and
keywords in `<span>` tags.  Each pass scans its input left to right and never
re-scans its own insertions, but later passes do re-scan text inserted by
earlier passes (the corruption hazard noted in the spec). -/

def slateOpen : List Char := "<span class=\"text-slate-400\">".data
def greenOpen : List Char := "<span class=\"text-green-300\">".data
def yellowOpen : List Char := "<span class=\"text-yellow-300\">".data
def purpleOpen : List Char := "<span class=\"text-purple-300 font-semibold\">".data
def spanClose : List Char := "</span>".data
def preOpen : List Char :=
  "<pre style=\"margin:0;padding:12px;font-family:ui-monospace, SFMono-Regular, Menlo, Monaco, monospace;\"><code>".data
def preClose : List Char := "</code></pre>".data
def emptyPreview : List Char :=
  "<pre style=\"margin:0;padding:12px;font-family:ui-monospace, SFMono-Regular, Menlo, Monaco, monospace;\">// Preview will appear here</pre>".data

def takeLine (s : List Char) : List Char := s.takeWhile (fun c => c != '\n')
def dropLine (s : List Char) : List Char := s.dropWhile (fun c => c != '\n')

/-- Pass 2 (source line 364):
`html.replace(/(\/\*[\s\S]*?\*\/|\/\/.*$|#.*$)/gm, m => open ++ esc(m) ++ close)`.
A lazy block comment runs to the first `*/` (no match if unclosed); `//` and
`#` line comments run to just before the next newline or the end. -/
def commentGo : Nat → List Char → List Char
  | 0, s => s
  | _ + 1, [] => []
  | f + 1, c :: cs =>
    if c = '/' ∧ cs.head? = some '*' then
      match findSub2 '*' '/' cs.tail with
      | some pr =>
          slateOpen ++ escL ('/' :: '*' :: (pr.1 ++ ['*', '/'])) ++ spanClose ++
            commentGo f pr.2
      | none => c :: commentGo f cs
    else if (c = '/' ∧ cs.head? = some '/') ∨ c = '#' then
      slateOpen ++ escL (takeLine (c :: cs)) ++ spanClose ++ commentGo f (dropLine (c :: cs))
    else
      c :: commentGo f cs

def isQuoteCh (c : Char) : Bool := c == '\"' || c == '\'' || c == backtickCh

/-- Pass 3 (source line 367): `html.replace(/("[^"]*"|'[^']*'|`[^`]*`)/g, ...)`;
a quote character opens a literal running to the next identical quote
(newlines included), with no match if it never closes. -/
def stringGo : Nat → List Char → List Char
  | 0, s => s
  | _ + 1, [] => []
  | f + 1, c :: cs =>
    if isQuoteCh c then
      match findCh c cs with
      | some pr =>
          greenOpen ++ escL (c :: (pr.1 ++ [c])) ++ spanClose ++ stringGo f pr.2
      | none => c :: stringGo f cs
    else c :: stringGo f cs

/-- Pass 4 (source line 370): `html.replace(/\b([0-9]+(?:\.[0-9]+)?)\b/g, ...)`,
with the JS backtracking reproduced: if the trailing boundary fails after the
fractional part, the integer part alone is retried (its boundary is the `.`);
if the character after the digit run is a word character, no prefix of the
run can match. -/
def numGo : Nat → Bool → List Char → List Char
  | 0, _, s => s
  | _ + 1, _, [] => []
  | f + 1, pw, c :: cs =>
    if !pw && isDigitCh c then
      let intPart := c :: cs.takeWhile isDigitCh
      match cs.dropWhile isDigitCh with
      | [] => yellowOpen ++ intPart ++ spanClose ++ numGo f true []
      | x :: r =>
        if x = '.' ∧ (r.head?.elim false isDigitCh) then
          let rest2 := r.dropWhile isDigitCh
          if boundaryAfter rest2 then
            yellowOpen ++ (intPart ++ '.' :: r.takeWhile isDigitCh) ++ spanClose ++
              numGo f true rest2
          else
            yellowOpen ++ intPart ++ spanClose ++ numGo f true (x :: r)
        else if !isWordCh x then
          yellowOpen ++ intPart ++ spanClose ++ numGo f true (x :: r)
        else
          intPart ++ numGo f true (x :: r)
    else c :: numGo f (isWordCh c) cs

/-- `\b` immediately before the keyword's first character `k0`, given whether
the previous character (if any) is a word character. -/
def kwBoundaryBefore (k0 : Char) (pw : Bool) : Bool :=
  if isWordCh k0 then !pw else pw

/-- `\b` immediately after the keyword's last character `kl`. -/
def kwBoundaryAfter (kl : Char) (after : List Char) : Bool :=
  match after with
  | [] => isWordCh kl
  | x :: _ => isWordCh kl != isWordCh x

def kwMatchAt : List Char → Bool → List Char → Bool
  | [], _, _ => false
  | k0 :: k1, pw, s =>
    kwBoundaryBefore k0 pw && (k0 :: k1).isPrefixOf s &&
      kwBoundaryAfter ((k0 :: k1).getLastD ' ') (s.drop (k0 :: k1).length)

/-- Pass 5, one keyword (source lines 385-389):
`html.replace(new RegExp('\\b' + escaped k + '\\b', 'g'), open ++ k ++ close)`. -/
def kwGo (k : List Char) : Nat → Bool → List Char → List Char
  | 0, _, s => s
  | _ + 1, _, [] => []
  | f + 1, pw, c :: cs =>
    if kwMatchAt k pw (c :: cs) then
      purpleOpen ++ k ++ spanClose ++
        kwGo k f (isWordCh (k.getLastD ' ')) ((c :: cs).drop k.length)
    else c :: kwGo k f (isWordCh c) cs

def commonKws : List String :=
  ["return", "const", "let", "var", "if", "else", "for", "while", "switch",
   "case", "break", "continue", "class", "new", "throw", "try", "catch",
   "finally", "import", "from", "export"]

def langKws (lang : String) : List String :=
  if lang = "java" then
    ["public", "private", "protected", "void", "throws", "implements", "extends"]
  else if lang = "python" then
    ["def", "None", "True", "False", "self", "elif", "lambda", "with", "as"]
  else if lang = "javascript" then ["async", "await", "=>", "function"]
  else if lang = "cpp" then ["#include", "std::", "template", "typename", "constexpr"]
  else if lang = "php" then ["<?php", "echo", "$this"]
  else if lang = "csharp" then ["using", "namespace", "Console", "static"]
  else []

/-- `new Set([...keywords.common, ...(keywords[lang] || [])])` iterated in
insertion order.  For each of the six language tags the two lists are
disjoint, and for any other tag the language list is empty (for the string
`"common"` the source would produce the deduplicated common list, which this
append also yields), so `Set` deduplication is the identity here. -/
def allKeywords (lang : String) : List (List Char) :=
  (commonKws ++ langKws lang).map String.data

def highlightCode (text : List Char) (lang : String) : List Char :=
  if text = [] then emptyPreview
  else
    let h0 := escL text
    let h1 := commentGo (h0.length + 1) h0
    let h2 := stringGo (h1.length + 1) h1
    let h3 := numGo (h2.length + 1) false h2
    let h4 := (allKeywords lang).foldl (fun h k => kwGo k (h.length + 1) false h) h3
    preOpen ++ h4 ++ preClose

/-- Delete every (leftmost, non-overlapping) occurrence of `pat`. -/
def stripSeqGo (pat : List Char) : Nat → List Char → List Char
  | 0, s => s
  | _ + 1, [] => []
  | f + 1, c :: cs =>
    if pat ≠ [] ∧ pat.isPrefixOf (c :: cs) then stripSeqGo pat f ((c :: cs).drop pat.length)
    else c :: stripSeqGo pat f cs

def stripSeq (pat : List Char) (s : List Char) : List Char :=
  stripSeqGo pat (s.length + 1) s

/-- Formalisation of the *claim's* reading of "removing all inserted markup":
delete the `<pre>`/`<code>` wrapper and every inserted `<span ...>` open tag
and `</span>` close tag from the highlighter's output.  This definition
follows the words of the specification (the code inserts no other markup), to
be compared against the escaped input. -/
def stripInsertedMarkup (s : List Char) : List Char :=
  stripSeq spanClose
    (stripSeq purpleOpen
      (stripSeq yellowOpen
        (stripSeq greenOpen
          (stripSeq slateOpen
            (stripSeq preClose (stripSeq preOpen s))))))

/-! ## Predicates used by the claim statements and proofs -/

/-- A line that participates in a pure depth increment: it matches the
nesting-keyword regex, does not match the decrement checks, and contains no
newline (so that it survives the line split intact). -/
def goodNestLine (l : List Char) : Prop :=
  hasNestKw l = true ∧ hasCloser l = false ∧ '\n' ∉ l

/-- No two adjacent characters are both digits. -/
def noAdjDigits : List Char → Bool
  | [] => true
  | [_] => true
  | a :: b :: r => !(isDigitCh a && isDigitCh b) && noAdjDigits (b :: r)

/-- No digit 2-9 occurs. -/
def noHighDigit (text : List Char) : Bool :=
  text.all (fun c => !('2' ≤ c && c ≤ '9'))

/-- Formalisation of the *claim's* hypothesis, following the words of the
specification: every numeric literal of the text is a single digit, bounded
on both sides by a present non-alphanumeric, non-underscore character. -/
def sdGo : Option Char → List Char → Bool
  | _, [] => true
  | prev, c :: cs =>
    (if isDigitCh c then
      (match prev with | some p => !isWordCh p | none => false)
        && (match cs.head? with | some x => !isWordCh x | none => false)
     else true)
    && sdGo (some c) cs

def singleDigitLiteralsOnly (text : List Char) : Bool := sdGo none text

def tagHeadSpan (cs : List Char) : Bool :=
  "span".data.isPrefixOf cs || "/span".data.isPrefixOf cs

def tagHeadWrap (cs : List Char) : Bool :=
  tagHeadSpan cs || "pre".data.isPrefixOf cs || "code".data.isPrefixOf cs ||
    "/code".data.isPrefixOf cs || "/pre".data.isPrefixOf cs

def okTagBy (th : List Char → Bool) : List Char → Bool
  | [] => true
  | c :: cs => ((c != '<') || th cs) && okTagBy th cs

def okTag : List Char → Bool := okTagBy tagHeadSpan

def okTagWrap : List Char → Bool := okTagBy tagHeadWrap

def kwGoodB (k : List Char) : Bool :=
  (k.all (fun c => c != '<') && !(k.isEmpty) && (k != ['s'])
    && !(("sp".data).isPrefixOf k) && (k.head? != some '/'))
  || (k == "<?php".data)


/-! ## The fixed emission order of the issue scanner -/

def issueOrder : List String :=
  ["TODOs", "Missing Comments", "Magic Numbers", "Deprecated patterns",
   "Null checks", "Deep nesting", "Long functions"]

lemma map_type_ite {p : Prop} [Decidable p] (t d : String) :
    (if p then [Issue.mk t d] else []).map Issue.type = (if p then [t] else []) := by
  split <;> simp

lemma ite_singleton_sublist {α : Type} {p : Prop} [Decidable p] (a : α) :
    List.Sublist (if p then [a] else []) [a] := by
  split
  · exact List.Sublist.refl _
  · exact List.nil_sublist _

lemma sublist_cons_of_ite {α : Type} {p : Prop} [Decidable p] (a : α) {l r : List α}
    (h : List.Sublist l r) :
    List.Sublist ((if p then [a] else []) ++ l) (a :: r) := by
  split
  · exact List.Sublist.cons₂ a h
  · exact List.Sublist.cons a h

lemma issueTypes_sublist (text : List Char) :
    List.Sublist ((analyzeIssues text).map Issue.type) issueOrder := by
  unfold analyzeIssues issueOrder
  split
  · simp
  · simp only [List.map_append, map_type_ite, List.append_assoc]
    apply sublist_cons_of_ite
    apply sublist_cons_of_ite
    apply sublist_cons_of_ite
    apply sublist_cons_of_ite
    apply sublist_cons_of_ite
    apply sublist_cons_of_ite
    exact ite_singleton_sublist _

lemma mem_ite_issue {p : Prop} [Decidable p] {t d : String} {x : Issue} :
    x ∈ (if p then [Issue.mk t d] else []) ↔ p ∧ x = ⟨t, d⟩ := by
  split <;> simp_all

/-! ## Claim theorems -/

/-- C9.  For every input text, the sequence of issues returned by the scanner
respects the fixed relative order TODOs, Missing Comments, Magic Numbers,
Deprecated patterns, Null checks, Deep nesting, Long functions (absent kinds
are skipped: the kind sequence is a sublist of the canonical order), and on
the empty string the scanner returns the empty sequence. -/
theorem issue_scan_order_fixed :
    (∀ text : List Char,
      List.Sublist ((analyzeIssues text).map Issue.type) issueOrder)
    ∧ analyzeIssues "".data = [] :=
  ⟨issueTypes_sublist, rfl⟩

/-- C8.  The scanner emits at most one `Issue` of each kind (for any kind
string, the emitted kind sequence counts it at most once), so the scorer's
per-kind penalty multipliers are effectively binary: the nesting penalty is 0
or 10, the long-function penalty 0 or 10, and the magic penalty 0 or 8,
independent of the occurrence counts inside the detail strings. -/
theorem issue_kinds_at_most_once (text : List Char) :
    (∀ k : String, ((analyzeIssues text).map Issue.type).count k ≤ 1)
    ∧ (nestingPenaltyOf (analyzeIssues text) = 0 ∨
        nestingPenaltyOf (analyzeIssues text) = 10)
    ∧ (longFuncPenaltyOf (analyzeIssues text) = 0 ∨
        longFuncPenaltyOf (analyzeIssues text) = 10)
    ∧ (magicPenaltyOf (analyzeIssues text) = 0 ∨
        magicPenaltyOf (analyzeIssues text) = 8) := by
  have hnd : ((analyzeIssues text).map Issue.type).Nodup :=
    (issueTypes_sublist text).nodup (by decide)
  have hcount : ∀ k : String, ((analyzeIssues text).map Issue.type).count k ≤ 1 :=
    List.nodup_iff_count_le_one.mp hnd
  have hco : ∀ k : String, countType k (analyzeIssues text) ≤ 1 := by
    intro k
    have h := hcount k
    rwa [List.count, List.countP_map] at h
  refine ⟨hcount, ?_, ?_, ?_⟩
  · rcases Nat.le_one_iff_eq_zero_or_eq_one.mp (hco "Deep nesting") with h | h
    · exact Or.inl (by simp [nestingPenaltyOf, h])
    · exact Or.inr (by simp [nestingPenaltyOf, h])
  · rcases Nat.le_one_iff_eq_zero_or_eq_one.mp (hco "Long functions") with h | h
    · exact Or.inl (by simp [longFuncPenaltyOf, h])
    · exact Or.inr (by simp [longFuncPenaltyOf, h])
  · rcases Nat.le_one_iff_eq_zero_or_eq_one.mp (hco "Magic Numbers") with h | h
    · exact Or.inl (by simp [magicPenaltyOf, h])
    · exact Or.inr (by simp [magicPenaltyOf, h])

/-- C5.  The complexity classification is `High` exactly when
`lineCount > 100` or `functionCount > 10`, otherwise `Medium` exactly when
`lineCount > 50` or `functionCount > 5`, otherwise `Low` (high overriding
medium); and the three example stats classify as in the specification. -/
theorem complexity_thresholds :
    (∀ text : List Char,
      (complexityOfText text = "High" ↔
        (100 < lineCount text ∨ 10 < functionCount text))
      ∧ (complexityOfText text = "Medium" ↔
        (¬ (100 < lineCount text ∨ 10 < functionCount text)
          ∧ (50 < lineCount text ∨ 5 < functionCount text)))
      ∧ (complexityOfText text = "Low" ↔
        (¬ (100 < lineCount text ∨ 10 < functionCount text)
          ∧ ¬ (50 < lineCount text ∨ 5 < functionCount text))))
    ∧ complexityOf 101 0 = "High" ∧ complexityOf 60 0 = "Medium"
    ∧ complexityOf 10 1 = "Low" := by
  have key : ∀ l f : Nat,
      (complexityOf l f = "High" ↔ (100 < l ∨ 10 < f))
      ∧ (complexityOf l f = "Medium" ↔ (¬ (100 < l ∨ 10 < f) ∧ (50 < l ∨ 5 < f)))
      ∧ (complexityOf l f = "Low" ↔ (¬ (100 < l ∨ 10 < f) ∧ ¬ (50 < l ∨ 5 < f))) := by
    intro l f
    by_cases h1 : (100 < l ∨ 10 < f) <;> by_cases h2 : (50 < l ∨ 5 < f) <;>
      simp [complexityOf, h1, h2]
  exact ⟨fun text => key (lineCount text) (functionCount text),
    by decide, by decide, by decide⟩

/-- C6.  Language detection evaluates its ordered rule list with the first
match winning: any text whose lowering matches a Python marker (the bounded
word `def` or `import`) and also a JavaScript marker (`function`, `const`, or
`let`) is detected as `python`, whatever the caller-supplied current
language. -/
theorem language_precedence_python (text : List Char) (lang : String)
    (hpy : wordTest "def".data (lowerL text) = true ∨
           wordTest "import".data (lowerL text) = true)
    (hjs : wordTest "function".data (lowerL text) = true ∨
           wordTest "const".data (lowerL text) = true ∨
           wordTest "let".data (lowerL text) = true) :
    detectLanguage text lang = "python" := by
  have hne : text ≠ [] := by
    rintro rfl
    rcases hpy with h | h <;> simp [lowerL, wordTest, wordTestGo] at h
  have hcond : (wordTest "def".data (lowerL text) ||
      wordTest "import".data (lowerL text)) = true := by
    rcases hpy with h | h <;> simp [h]
  unfold detectLanguage
  rw [if_neg hne, if_pos hcond]

/-- C6 witness: a concrete text containing both a Python and a JavaScript
marker is detected as `python` even though the current language is
`javascript`. -/
theorem language_precedence_python_witness :
    (wordTest "def".data (lowerL "def f() function g()".data) = true ∨
      wordTest "import".data (lowerL "def f() function g()".data) = true)
    ∧ (wordTest "function".data (lowerL "def f() function g()".data) = true ∨
       wordTest "const".data (lowerL "def f() function g()".data) = true ∨
       wordTest "let".data (lowerL "def f() function g()".data) = true)
    ∧ detectLanguage "def f() function g()".data "javascript" = "python" :=
  ⟨Or.inl (by decide), Or.inl (by decide),
    language_precedence_python _ _ (Or.inl (by decide)) (Or.inl (by decide))⟩

/-- C10.  For every text, issue list, documentation text and complexity level
among Low/Medium/High, the risk score is at least 5: the complexity penalty
added into the risk is at least its Low value 5. -/
theorem risk_floor_five (text : List Char) (issues : List Issue)
    (docText : List Char) (cx : String)
    (h : cx = "Low" ∨ cx = "Medium" ∨ cx = "High") :
    5 ≤ (calculateQualityScore text issues docText cx).risk := by
  have hp : 5 ≤ complexityPenaltyOf cx := by
    rcases h with rfl | rfl | rfl <;> simp [complexityPenaltyOf]
  have hq : (5 : ℚ) ≤ ((issues.length : ℕ) * 15 : ℚ) + (complexityPenaltyOf cx : ℚ) := by
    have h1 : (0 : ℚ) ≤ ((issues.length : ℕ) * 15 : ℚ) := by positivity
    have h2 : (5 : ℚ) ≤ (complexityPenaltyOf cx : ℚ) := by exact_mod_cast hp
    linarith
  have hr : (5 : ℤ) ≤ jsRound (((issues.length : ℕ) * 15 : ℚ) + (complexityPenaltyOf cx : ℚ)) := by
    unfold jsRound
    rw [Int.le_floor]
    push_cast
    linarith
  simp only [calculateQualityScore, riskOf]
  exact le_min (by norm_num) hr

/-- C10 witness: the risk of an issue-free `Low` report is at least 5. -/
theorem risk_floor_five_witness :
    (("Low" : String) = "Low" ∨ ("Low" : String) = "Medium" ∨ ("Low" : String) = "High")
    ∧ 5 ≤ (calculateQualityScore "x".data [] [] "Low").risk :=
  ⟨Or.inl rfl, risk_floor_five "x".data [] [] "Low" (Or.inl rfl)⟩

/-! ## Bounds of the individual scores (for C4) -/

lemma jsRound_nonneg {q : ℚ} (h : 0 ≤ q) : 0 ≤ jsRound q := by
  unfold jsRound
  rw [Int.floor_nonneg]
  linarith

lemma jsRound_le {z : ℤ} {q : ℚ} (h : q < (z : ℚ) + 1/2) : jsRound q ≤ z := by
  unfold jsRound
  rw [Int.floor_le_iff]
  linarith

lemma complexityPenaltyOf_lb (cx : String) : 5 ≤ complexityPenaltyOf cx := by
  unfold complexityPenaltyOf
  split_ifs <;> norm_num

lemma nestingPenaltyOf_nonneg (issues : List Issue) : 0 ≤ nestingPenaltyOf issues :=
  le_min (by norm_num) (by positivity)

lemma longFuncPenaltyOf_nonneg (issues : List Issue) : 0 ≤ longFuncPenaltyOf issues :=
  le_min (by norm_num) (by positivity)

lemma magicPenaltyOf_nonneg (issues : List Issue) : 0 ≤ magicPenaltyOf issues :=
  le_min (by norm_num) (by positivity)

lemma missingCommentsPenaltyOf_nonneg (issues : List Issue) :
    0 ≤ missingCommentsPenaltyOf issues := by
  unfold missingCommentsPenaltyOf
  split <;> norm_num

lemma commentScoreOf_bounds (t : List Char) :
    0 ≤ commentScoreOf t ∧ commentScoreOf t ≤ 100 :=
  ⟨le_min (by norm_num) (jsRound_nonneg (by positivity)), min_le_left _ _⟩

lemma complexityScoreOf_bounds (issues : List Issue) (cx : String) :
    10 ≤ complexityScoreOf issues cx ∧ complexityScoreOf issues cx ≤ 95 := by
  constructor
  · exact le_max_left _ _
  · apply max_le (by norm_num)
    have h1 := complexityPenaltyOf_lb cx
    have h2 := nestingPenaltyOf_nonneg issues
    have h3 := longFuncPenaltyOf_nonneg issues
    linarith

lemma clarityScoreOf_bounds (issues : List Issue) :
    10 ≤ clarityScoreOf issues ∧ clarityScoreOf issues ≤ 100 := by
  constructor
  · exact le_max_left _ _
  · apply max_le (by norm_num)
    have h1 := magicPenaltyOf_nonneg issues
    have h2 := missingCommentsPenaltyOf_nonneg issues
    linarith

lemma maintainabilityOf_bounds (t : List Char) (issues : List Issue) (cx : String) :
    0 ≤ maintainabilityOf t issues cx ∧ maintainabilityOf t issues cx ≤ 100 := by
  have hA := commentScoreOf_bounds t
  have hB := complexityScoreOf_bounds issues cx
  have hC := clarityScoreOf_bounds issues
  unfold maintainabilityOf
  constructor
  · apply jsRound_nonneg
    have : (0 : ℤ) ≤ commentScoreOf t + complexityScoreOf issues cx + clarityScoreOf issues := by
      linarith [hA.1, hB.1, hC.1]
    positivity
  · apply jsRound_le
    have hS : commentScoreOf t + complexityScoreOf issues cx + clarityScoreOf issues ≤ 295 := by
      linarith [hA.2, hB.2, hC.2]
    have hSq : ((commentScoreOf t + complexityScoreOf issues cx + clarityScoreOf issues : ℤ) : ℚ)
        ≤ 295 := by exact_mod_cast hS
    linarith

lemma docCompletenessOf_bounds (t d : List Char) :
    0 ≤ docCompletenessOf t d ∧ docCompletenessOf t d ≤ 100 := by
  unfold docCompletenessOf
  refine ⟨le_min (by norm_num) (jsRound_nonneg ?_), min_le_left _ _⟩
  have : (0 : ℤ) ≤ (if d.dropWhile isWsCh ≠ [] then (30 : ℤ) else 0) := by
    split <;> norm_num
  have hq : (0 : ℚ) ≤ ((if d.dropWhile isWsCh ≠ [] then (30 : ℤ) else 0) : ℚ) := by
    exact_mod_cast this
  positivity

lemma riskOf_bounds (issues : List Issue) (cx : String) :
    0 ≤ riskOf issues cx ∧ riskOf issues cx ≤ 100 := by
  unfold riskOf
  refine ⟨le_min (by norm_num) (jsRound_nonneg ?_), min_le_left _ _⟩
  have h1 := complexityPenaltyOf_lb cx
  have h2 : (5 : ℚ) ≤ (complexityPenaltyOf cx : ℚ) := by exact_mod_cast h1
  positivity

/-- C4.  For every non-empty input text, issue list, documentation text and
complexity level, all six fields of the returned `QualityReport` (they are
integers by construction, the scorer computes in exact arithmetic and every
field has type `ℤ`) lie in `[0, 100]`, and `complexityScore` and
`clarityScore` are additionally at least 10. -/
theorem quality_report_bounds (text : List Char) (_hne : text ≠ [])
    (issues : List Issue) (docText : List Char) (cx : String) :
    (0 ≤ (calculateQualityScore text issues docText cx).maintainability ∧
      (calculateQualityScore text issues docText cx).maintainability ≤ 100)
    ∧ (0 ≤ (calculateQualityScore text issues docText cx).commentScore ∧
      (calculateQualityScore text issues docText cx).commentScore ≤ 100)
    ∧ (0 ≤ (calculateQualityScore text issues docText cx).complexityScore ∧
      (calculateQualityScore text issues docText cx).complexityScore ≤ 100)
    ∧ (0 ≤ (calculateQualityScore text issues docText cx).clarityScore ∧
      (calculateQualityScore text issues docText cx).clarityScore ≤ 100)
    ∧ (0 ≤ (calculateQualityScore text issues docText cx).docCompleteness ∧
      (calculateQualityScore text issues docText cx).docCompleteness ≤ 100)
    ∧ (0 ≤ (calculateQualityScore text issues docText cx).risk ∧
      (calculateQualityScore text issues docText cx).risk ≤ 100)
    ∧ 10 ≤ (calculateQualityScore text issues docText cx).complexityScore
    ∧ 10 ≤ (calculateQualityScore text issues docText cx).clarityScore := by
  simp only [calculateQualityScore]
  have hM := maintainabilityOf_bounds text issues cx
  have hA := commentScoreOf_bounds text
  have hB := complexityScoreOf_bounds issues cx
  have hC := clarityScoreOf_bounds issues
  have hD := docCompletenessOf_bounds text docText
  have hR := riskOf_bounds issues cx
  exact ⟨hM, hA, ⟨by linarith [hB.1], by linarith [hB.2]⟩,
    ⟨by linarith [hC.1], hC.2⟩, hD, hR, hB.1, hC.1⟩

/-- C4 witness: the bounds at the concrete input `"x"`. -/
theorem quality_report_bounds_witness :
    ("x".data ≠ ([] : List Char))
    ∧ (0 ≤ (calculateQualityScore "x".data [] [] "Low").maintainability ∧
      (calculateQualityScore "x".data [] [] "Low").maintainability ≤ 100) :=
  ⟨by decide, (quality_report_bounds "x".data (by decide) [] [] "Low").1⟩

/-! ## Deep nesting (C7) -/

lemma splitOnCh_of_not_mem {sep : Char} {a : List Char} (ha : sep ∉ a) :
    splitOnCh sep a = [a] := by
  induction a with
  | nil => rfl
  | cons c cs ih =>
    have hc : c ≠ sep := fun h => ha (h ▸ List.mem_cons_self c cs)
    have hcs : sep ∉ cs := fun h => ha (List.mem_cons_of_mem c h)
    simp [splitOnCh, hc, ih hcs]

lemma splitOnCh_append {sep : Char} {a : List Char} (rest : List Char) (ha : sep ∉ a) :
    splitOnCh sep (a ++ sep :: rest) = a :: splitOnCh sep rest := by
  induction a with
  | nil => simp [splitOnCh]
  | cons c cs ih =>
    have hc : c ≠ sep := fun h => ha (h ▸ List.mem_cons_self c cs)
    have hcs : sep ∉ cs := fun h => ha (List.mem_cons_of_mem c h)
    simp [splitOnCh, hc, ih hcs]

lemma deepNesting_mem {text : List Char} (hne : text ≠ [])
    (hd : 4 ≤ maxNestingDepth text) :
    Issue.mk "Deep nesting" ("Max nesting depth ~" ++ toString (maxNestingDepth text))
      ∈ analyzeIssues text := by
  unfold analyzeIssues
  rw [if_neg hne]
  apply List.mem_append_left
  apply List.mem_append_right
  rw [if_pos hd]
  exact List.mem_singleton_self _

/-- C7.  The deep-nesting check emits its issue whenever the maximum of the
per-line depth fold (increment before clamped decrement, maximum tracked
after both) reaches 4; in particular four sequential lines that each match
the nesting-keyword check and neither decrement check drive the counter to 4
and trigger the issue. -/
theorem deep_nesting_four_lines :
    (∀ text : List Char, text ≠ [] → 4 ≤ maxNestingDepth text →
      Issue.mk "Deep nesting" ("Max nesting depth ~" ++ toString (maxNestingDepth text))
        ∈ analyzeIssues text)
    ∧ ∀ l1 l2 l3 l4 : List Char, goodNestLine l1 → goodNestLine l2 →
        goodNestLine l3 → goodNestLine l4 →
        4 ≤ maxNestingDepth (l1 ++ '\n' :: (l2 ++ '\n' :: (l3 ++ '\n' :: l4)))
        ∧ Issue.mk "Deep nesting"
            ("Max nesting depth ~" ++
              toString (maxNestingDepth (l1 ++ '\n' :: (l2 ++ '\n' :: (l3 ++ '\n' :: l4)))))
          ∈ analyzeIssues (l1 ++ '\n' :: (l2 ++ '\n' :: (l3 ++ '\n' :: l4))) := by
  refine ⟨fun _text hne hd => deepNesting_mem hne hd, ?_⟩
  intro l1 l2 l3 l4 g1 g2 g3 g4
  have hne : l1 ++ '\n' :: (l2 ++ '\n' :: (l3 ++ '\n' :: l4)) ≠ [] := by
    cases l1 <;> simp
  have hsplit : splitOnCh '\n' (l1 ++ '\n' :: (l2 ++ '\n' :: (l3 ++ '\n' :: l4)))
      = [l1, l2, l3, l4] := by
    rw [splitOnCh_append _ g1.2.2, splitOnCh_append _ g2.2.2,
      splitOnCh_append _ g3.2.2, splitOnCh_of_not_mem g4.2.2]
  have hmax : maxNestingDepth (l1 ++ '\n' :: (l2 ++ '\n' :: (l3 ++ '\n' :: l4))) = 4 := by
    unfold maxNestingDepth
    rw [hsplit]
    simp [nestStep, g1.1, g1.2.1, g2.1, g2.2.1, g3.1, g3.2.1, g4.1, g4.2.1]
  exact ⟨by rw [hmax], deepNesting_mem hne (by rw [hmax])⟩

/-- C7 witness: the four concrete lines `if (` / `for (` / `while (` /
`switch (`. -/
theorem deep_nesting_four_lines_witness :
    goodNestLine "if (".data ∧ goodNestLine "for (".data
    ∧ goodNestLine "while (".data ∧ goodNestLine "switch (".data
    ∧ (4 ≤ maxNestingDepth ("if (".data ++ '\n' ::
        ("for (".data ++ '\n' :: ("while (".data ++ '\n' :: "switch (".data)))) :=
  ⟨⟨by decide, by decide, by decide⟩, ⟨by decide, by decide, by decide⟩,
   ⟨by decide, by decide, by decide⟩, ⟨by decide, by decide, by decide⟩,
   (deep_nesting_four_lines.2 "if (".data "for (".data "while (".data "switch (".data
     ⟨by decide, by decide, by decide⟩ ⟨by decide, by decide, by decide⟩
     ⟨by decide, by decide, by decide⟩ ⟨by decide, by decide, by decide⟩).1⟩

/-! ## Magic numbers (C1) -/

lemma noAdjDigits_tail {c : Char} {cs : List Char} (h : noAdjDigits (c :: cs) = true) :
    noAdjDigits cs = true := by
  cases cs with
  | nil => rfl
  | cons b r =>
    unfold noAdjDigits at h
    simp only [Bool.and_eq_true] at h
    exact h.2

lemma noHighDigit_tail {c : Char} {cs : List Char} (h : noHighDigit (c :: cs) = true) :
    noHighDigit cs = true := by
  unfold noHighDigit at h ⊢
  rw [List.all_cons, Bool.and_eq_true] at h
  exact h.2

lemma magicTail_none {cs : List Char} (h1 : noHighDigit cs = true)
    (h2 : noAdjDigits cs = true) : magicTail cs = none := by
  cases cs with
  | nil => rfl
  | cons d cs1 =>
    have hd : ¬ ('2' ≤ d ∧ d ≤ '9') := by
      intro hc
      have hall := (List.all_eq_true.mp h1) d (List.mem_cons_self d cs1)
      simp only [Bool.not_eq_true', Bool.and_eq_false_iff, decide_eq_false_iff_not] at hall
      rcases hall with h | h
      · exact h hc.1
      · exact h hc.2
    simp only [magicTail]
    rw [if_neg hd]
    by_cases h19 : ('1' ≤ d ∧ d ≤ '9')
    · rw [if_pos h19]
      have hdd : isDigitCh d = true := by
        unfold isDigitCh
        have h0 : '0' ≤ d := le_trans (by decide) h19.1
        simp [h0, h19.2]
      have hds : cs1.takeWhile isDigitCh = [] := by
        cases cs1 with
        | nil => rfl
        | cons b r =>
          have hb : isDigitCh b = false := by
            have h3 := h2
            unfold noAdjDigits at h3
            simp only [Bool.and_eq_true] at h3
            obtain ⟨hab, _⟩ := h3
            simp only [Bool.not_eq_true', Bool.and_eq_false_iff] at hab
            rcases hab with h | h
            · exact absurd hdd (by simp [h])
            · exact h
          simp [List.takeWhile_cons, hb]
      simp [magicTail.magicLong, hds]
    · rw [if_neg h19]

lemma magicGo_zero (f : Nat) : ∀ s : List Char, noHighDigit s = true →
    noAdjDigits s = true → magicGo f s = 0 := by
  induction f with
  | zero => intro s _ _; rfl
  | succ f ih =>
    intro s h1 h2
    cases s with
    | nil => rfl
    | cons c cs =>
      have h1t := noHighDigit_tail h1
      have h2t := noAdjDigits_tail h2
      unfold magicGo
      split
      · rw [magicTail_none h1t h2t]
        exact ih cs h1t h2t
      · exact ih cs h1t h2t

lemma magicCount_zero {text : List Char} (h1 : noHighDigit text = true)
    (h2 : noAdjDigits text = true) : magicCount text = 0 :=
  magicGo_zero _ text h1 h2

lemma magic_not_mem_of_count_zero {text : List Char} (h : magicCount text = 0) :
    ∀ d : String, Issue.mk "Magic Numbers" d ∉ analyzeIssues text := by
  intro d hmem
  unfold analyzeIssues at hmem
  split at hmem
  · exact absurd hmem (List.not_mem_nil _)
  · simp only [List.mem_append, mem_ite_issue, Issue.mk.injEq, h] at hmem
    simp at hmem

/-- C1 counterexample: in the text `" 5 "` every numeric literal is a single
digit 0-9 bounded on both sides by non-identifier characters, yet the scanner
does emit a Magic Numbers issue — the regex alternative `[2-9][0-9]?` has an
*optional* second digit, so it matches the single digits 2-9. -/
theorem magic_numbers_single_digit_cex :
    singleDigitLiteralsOnly " 5 ".data = true
    ∧ Issue.mk "Magic Numbers" "1 suspicious numeric literals" ∈ analyzeIssues " 5 ".data :=
  ⟨by decide, by decide⟩

/-- C1 (amended).  The scanner emits no Magic Numbers issue on any text
containing no digit 2-9 and no two adjacent digits (so every numeric literal
is a single digit 0 or 1); the literal `42` bounded by non-identifier
characters does trigger it, and so does the single digit `5`. -/
theorem magic_numbers_low_digit_safe :
    (∀ text : List Char, noHighDigit text = true → noAdjDigits text = true →
      ∀ d : String, Issue.mk "Magic Numbers" d ∉ analyzeIssues text)
    ∧ Issue.mk "Magic Numbers" "1 suspicious numeric literals" ∈ analyzeIssues " 42 ".data
    ∧ Issue.mk "Magic Numbers" "1 suspicious numeric literals" ∈ analyzeIssues " 5 ".data :=
  ⟨fun _text h1 h2 => magic_not_mem_of_count_zero (magicCount_zero h1 h2),
   by decide, by decide⟩

/-- C1 witness: the amended universal statement applied at the concrete text
`"x = 1;"`. -/
theorem magic_numbers_low_digit_safe_witness :
    noHighDigit "x = 1;".data = true ∧ noAdjDigits "x = 1;".data = true
    ∧ ∀ d : String, Issue.mk "Magic Numbers" d ∉ analyzeIssues "x = 1;".data :=
  ⟨by decide, by decide,
    magic_numbers_low_digit_safe.1 "x = 1;".data (by decide) (by decide)⟩

/-! ## Highlighter safety (C3): every literal `<` in the working string opens
an inserted tag

The escape pass removes every `<` of the input; afterwards each pass inserts
`<` only at the head of a complete `<span ...>` / `</span>` tag, and no pass
ever matches at the position immediately following such a `<` in a way that
would separate the `<` from its tag name.  The invariant `okTag` states that
every occurrence of `<` is immediately followed by `span` or `/span` (with
those characters present); `okTagWrap` additionally allows the final
`<pre>`/`<code>` wrapper names.  `<script>` needs `<sc`, which the invariant
rules out. -/

lemma isPrefixOf_append_right {p l : List Char} (r : List Char)
    (h : p.isPrefixOf l = true) : p.isPrefixOf (l ++ r) = true := by
  rw [List.isPrefixOf_iff_prefix] at h ⊢
  exact h.trans (List.prefix_append l r)

lemma self_isPrefixOf_append (p r : List Char) : p.isPrefixOf (p ++ r) = true := by
  rw [List.isPrefixOf_iff_prefix]
  exact List.prefix_append p r

lemma tagHeadSpan_mono : ∀ cs r : List Char, tagHeadSpan cs = true →
    tagHeadSpan (cs ++ r) = true := by
  intro cs r h
  unfold tagHeadSpan at h ⊢
  simp only [Bool.or_eq_true] at h ⊢
  rcases h with h | h
  · exact Or.inl (isPrefixOf_append_right r h)
  · exact Or.inr (isPrefixOf_append_right r h)

lemma tagHeadWrap_mono : ∀ cs r : List Char, tagHeadWrap cs = true →
    tagHeadWrap (cs ++ r) = true := by
  intro cs r h
  unfold tagHeadWrap at h ⊢
  simp only [Bool.or_eq_true] at h ⊢
  rcases h with ((((h | h) | h) | h) | h)
  · exact Or.inl (Or.inl (Or.inl (Or.inl (tagHeadSpan_mono cs r h))))
  · exact Or.inl (Or.inl (Or.inl (Or.inr (isPrefixOf_append_right r h))))
  · exact Or.inl (Or.inl (Or.inr (isPrefixOf_append_right r h)))
  · exact Or.inl (Or.inr (isPrefixOf_append_right r h))
  · exact Or.inr (isPrefixOf_append_right r h)

lemma okTagBy_cons_elim {th : List Char → Bool} {c : Char} {cs : List Char}
    (h : okTagBy th (c :: cs) = true) :
    ((c != '<') || th cs) = true ∧ okTagBy th cs = true := by
  unfold okTagBy at h
  exact Bool.and_eq_true_iff.mp h

lemma okTagBy_cons_of_ne {th : List Char → Bool} {c : Char} {cs : List Char}
    (hc : c ≠ '<') (h : okTagBy th cs = true) : okTagBy th (c :: cs) = true := by
  unfold okTagBy
  simp [hc, h]

lemma okTagBy_cons_lt {th : List Char → Bool} {cs : List Char}
    (h1 : th cs = true) (h2 : okTagBy th cs = true) :
    okTagBy th ('<' :: cs) = true := by
  unfold okTagBy
  simp [h1, h2]

lemma okTagBy_lt_elim {th : List Char → Bool} {cs : List Char}
    (h : okTagBy th ('<' :: cs) = true) : th cs = true ∧ okTagBy th cs = true := by
  obtain ⟨h1, h2⟩ := okTagBy_cons_elim h
  refine ⟨?_, h2⟩
  simpa using h1

lemma okTagBy_append {th : List Char → Bool}
    (hmono : ∀ cs r : List Char, th cs = true → th (cs ++ r) = true)
    {a b : List Char} (ha : okTagBy th a = true) (hb : okTagBy th b = true) :
    okTagBy th (a ++ b) = true := by
  induction a with
  | nil => simpa using hb
  | cons c cs ih =>
    obtain ⟨h1, h2⟩ := okTagBy_cons_elim ha
    rw [List.cons_append]
    unfold okTagBy
    rw [Bool.and_eq_true_iff]
    refine ⟨?_, ih h2⟩
    rw [Bool.or_eq_true] at h1
    rcases h1 with h1 | h1
    · simp [h1]
    · simp [hmono _ b h1]

lemma okTagBy_of_not_mem {th : List Char → Bool} {s : List Char} (h : '<' ∉ s) :
    okTagBy th s = true := by
  induction s with
  | nil => rfl
  | cons c cs ih =>
    have hc : c ≠ '<' := fun hcc => h (hcc ▸ List.mem_cons_self c cs)
    exact okTagBy_cons_of_ne hc (ih (fun hm => h (List.mem_cons_of_mem c hm)))

lemma okTagBy_suffix {th : List Char → Bool} :
    ∀ {s t : List Char}, okTagBy th s = true → t <:+ s → okTagBy th t = true := by
  intro s
  induction s with
  | nil =>
    intro t hs ht
    rwa [List.suffix_nil.mp ht]
  | cons c cs ih =>
    intro t hs ht
    rcases List.suffix_cons_iff.mp ht with h | h
    · rwa [h]
    · exact ih (okTagBy_cons_elim hs).2 h

lemma okTag_imp_wrap {s : List Char} (h : okTag s = true) : okTagWrap s = true := by
  induction s with
  | nil => rfl
  | cons c cs ih =>
    obtain ⟨h1, h2⟩ := okTagBy_cons_elim h
    unfold okTagWrap okTagBy
    rw [Bool.and_eq_true_iff]
    refine ⟨?_, ih h2⟩
    rw [Bool.or_eq_true] at h1
    rcases h1 with h1 | h1
    · simp [h1]
    · simp [tagHeadWrap, h1]

/-! ### The escaped text contains no `<` at all -/

lemma not_mem_replaceCh_self {c : Char} {rep : List Char} (h : c ∉ rep) :
    ∀ s : List Char, c ∉ replaceCh c rep s := by
  intro s
  induction s with
  | nil => exact List.not_mem_nil c
  | cons x xs ih =>
    unfold replaceCh
    intro hm
    rcases List.mem_append.mp hm with hm | hm
    · split at hm
      · exact h hm
      · rename_i hx
        rw [List.mem_singleton] at hm
        exact hx (hm ▸ rfl)
    · exact ih hm

lemma not_mem_replaceCh_of {d c : Char} {rep : List Char} (hrep : d ∉ rep) :
    ∀ {s : List Char}, d ∉ s → d ∉ replaceCh c rep s := by
  intro s hs
  induction s with
  | nil => exact List.not_mem_nil d
  | cons x xs ih =>
    unfold replaceCh
    intro hm
    rcases List.mem_append.mp hm with hm | hm
    · split at hm
      · exact hrep hm
      · rw [List.mem_singleton] at hm
        exact hs (hm ▸ List.mem_cons_self x xs)
    · exact ih (fun hmm => hs (List.mem_cons_of_mem x hmm)) hm

lemma escL_not_mem_lt (s : List Char) : '<' ∉ escL s := by
  unfold escL
  exact not_mem_replaceCh_of (by decide)
    (not_mem_replaceCh_self (by decide) _)

/-! ### Structure of the split helpers -/

lemma findCh_eq {q : Char} :
    ∀ {s p r : List Char}, findCh q s = some (p, r) → s = p ++ q :: r := by
  intro s
  induction s with
  | nil => intro p r h; exact absurd h (by simp [findCh])
  | cons c cs ih =>
    intro p r h
    unfold findCh at h
    split at h
    · rename_i hc
      rw [Option.some_inj] at h
      obtain ⟨rfl, rfl⟩ := Prod.mk.injEq .. ▸ (Prod.ext_iff.mp h.symm)
      simp [hc]
    · rcases hfc : findCh q cs with _ | pr
      · rw [hfc] at h; exact absurd h (by simp)
      · rw [hfc] at h
        simp only [Option.map_some', Option.some_inj] at h
        obtain ⟨rfl, rfl⟩ := Prod.ext_iff.mp h.symm
        simp [ih hfc]

lemma findCh_suffix {q : Char} {s p r : List Char} (h : findCh q s = some (p, r)) :
    r <:+ s := by
  rw [findCh_eq h]
  exact ⟨p ++ [q], by simp⟩

lemma findSub2_eq {a b : Char} :
    ∀ {s p r : List Char}, findSub2 a b s = some (p, r) → s = p ++ a :: b :: r := by
  intro s
  induction s with
  | nil => intro p r h; exact absurd h (by simp [findSub2])
  | cons c cs ih =>
    intro p r h
    unfold findSub2 at h
    split at h
    · rename_i hc
      rw [Option.some_inj] at h
      obtain ⟨rfl, rfl⟩ := Prod.ext_iff.mp h.symm
      obtain ⟨hca, hhd⟩ := hc
      cases cs with
      | nil => simp at hhd
      | cons y ys =>
        simp only [List.head?_cons, Option.some_inj] at hhd
        simp [hca, hhd]
    · rcases hfc : findSub2 a b cs with _ | pr
      · rw [hfc] at h; exact absurd h (by simp)
      · rw [hfc] at h
        simp only [Option.map_some', Option.some_inj] at h
        obtain ⟨rfl, rfl⟩ := Prod.ext_iff.mp h.symm
        simp [ih hfc]

lemma findSub2_suffix {a b : Char} {s p r : List Char}
    (h : findSub2 a b s = some (p, r)) : r <:+ s := by
  rw [findSub2_eq h]
  exact ⟨p ++ [a, b], by simp⟩

/-! ### Pass 2 (comments) preserves the invariant

Its input is the escaped text, which contains no `<` at all; every insertion
is a complete tag around an escaped (hence `<`-free) fragment. -/

lemma okTag_slateOpen : okTag slateOpen = true := by decide
lemma okTag_greenOpen : okTag greenOpen = true := by decide
lemma okTag_yellowOpen : okTag yellowOpen = true := by decide
lemma okTag_purpleOpen : okTag purpleOpen = true := by decide
lemma okTag_spanClose : okTag spanClose = true := by decide

lemma commentGo_okTag : ∀ (f : Nat) (s : List Char), '<' ∉ s →
    okTag (commentGo f s) = true := by
  intro f
  induction f with
  | zero => intro s h; exact okTagBy_of_not_mem h
  | succ f ih =>
    intro s h
    cases s with
    | nil => rfl
    | cons c cs =>
      have hc : c ≠ '<' := fun hcc => h (hcc ▸ List.mem_cons_self c cs)
      have hcs : '<' ∉ cs := fun hm => h (List.mem_cons_of_mem c hm)
      unfold commentGo
      split
      · rename_i hblk
        split
        · rename_i pr hfs
          have hr : '<' ∉ pr.2 := by
            intro hm
            exact hcs (List.mem_of_mem_tail ((findSub2_suffix hfs).subset hm))
          exact okTagBy_append tagHeadSpan_mono
            (okTagBy_append tagHeadSpan_mono
              (okTagBy_append tagHeadSpan_mono okTag_slateOpen
                (okTagBy_of_not_mem (escL_not_mem_lt _)))
              okTag_spanClose)
            (ih _ hr)
        · exact okTagBy_cons_of_ne hc (ih cs hcs)
      · split
        · have hdrop : '<' ∉ dropLine (c :: cs) := by
            intro hm
            exact h ((List.dropWhile_suffix _).subset hm)
          exact okTagBy_append tagHeadSpan_mono
            (okTagBy_append tagHeadSpan_mono
              (okTagBy_append tagHeadSpan_mono okTag_slateOpen
                (okTagBy_of_not_mem (escL_not_mem_lt _)))
              okTag_spanClose)
            (ih _ hdrop)
        · exact okTagBy_cons_of_ne hc (ih cs hcs)

/-! ### Passes 3 and 4 copy the characters of a tag name untouched -/

lemma stringGo_copy {f : Nat} {c : Char} {cs : List Char} (h : isQuoteCh c = false) :
    stringGo (f + 1) (c :: cs) = c :: stringGo f cs := by
  simp [stringGo, h]

lemma stringGo_copy_prefix : ∀ (f : Nat) (w r : List Char),
    (∀ c ∈ w, isQuoteCh c = false) →
    ∃ t, stringGo f (w ++ r) = w ++ t := by
  intro f
  induction f with
  | zero => intro w r _; exact ⟨r, rfl⟩
  | succ f ih =>
    intro w r hw
    cases w with
    | nil => exact ⟨stringGo (f + 1) r, rfl⟩
    | cons c cs =>
      rw [List.cons_append, stringGo_copy (hw c (List.mem_cons_self c cs))]
      obtain ⟨t, ht⟩ := ih cs r (fun x hx => hw x (List.mem_cons_of_mem c hx))
      exact ⟨t, by rw [ht, List.cons_append]⟩

lemma tagHeadSpan_of_span (t : List Char) : tagHeadSpan ("span".data ++ t) = true := by
  unfold tagHeadSpan
  rw [Bool.or_eq_true]
  exact Or.inl (self_isPrefixOf_append _ _)

lemma tagHeadSpan_of_slash_span (t : List Char) :
    tagHeadSpan ("/span".data ++ t) = true := by
  unfold tagHeadSpan
  rw [Bool.or_eq_true]
  exact Or.inr (self_isPrefixOf_append _ _)

lemma tagHeadSpan_elim {cs : List Char} (h : tagHeadSpan cs = true) :
    (∃ r, cs = "span".data ++ r) ∨ (∃ r, cs = "/span".data ++ r) := by
  unfold tagHeadSpan at h
  rw [Bool.or_eq_true] at h
  rcases h with h | h
  · rw [List.isPrefixOf_iff_prefix] at h
    obtain ⟨r, hr⟩ := h
    exact Or.inl ⟨r, hr.symm⟩
  · rw [List.isPrefixOf_iff_prefix] at h
    obtain ⟨r, hr⟩ := h
    exact Or.inr ⟨r, hr.symm⟩

lemma stringGo_tagHead (f : Nat) {cs : List Char} (h : tagHeadSpan cs = true) :
    tagHeadSpan (stringGo f cs) = true := by
  rcases tagHeadSpan_elim h with ⟨r, rfl⟩ | ⟨r, rfl⟩
  · obtain ⟨t, ht⟩ := stringGo_copy_prefix f "span".data r (by decide)
    rw [ht]
    exact tagHeadSpan_of_span t
  · obtain ⟨t, ht⟩ := stringGo_copy_prefix f "/span".data r (by decide)
    rw [ht]
    exact tagHeadSpan_of_slash_span t

lemma numGo_copy {f : Nat} {pw : Bool} {c : Char} {cs : List Char}
    (h : isDigitCh c = false) :
    numGo (f + 1) pw (c :: cs) = c :: numGo f (isWordCh c) cs := by
  simp [numGo, h]

lemma numGo_copy_prefix : ∀ (f : Nat) (w r : List Char) (pw : Bool),
    (∀ c ∈ w, isDigitCh c = false) →
    ∃ t, numGo f pw (w ++ r) = w ++ t := by
  intro f
  induction f with
  | zero => intro w r pw _; exact ⟨r, rfl⟩
  | succ f ih =>
    intro w r pw hw
    cases w with
    | nil => exact ⟨numGo (f + 1) pw r, rfl⟩
    | cons c cs =>
      rw [List.cons_append, numGo_copy (hw c (List.mem_cons_self c cs))]
      obtain ⟨t, ht⟩ := ih cs r (isWordCh c) (fun x hx => hw x (List.mem_cons_of_mem c hx))
      exact ⟨t, by rw [ht, List.cons_append]⟩

lemma numGo_tagHead (f : Nat) (pw : Bool) {cs : List Char} (h : tagHeadSpan cs = true) :
    tagHeadSpan (numGo f pw cs) = true := by
  rcases tagHeadSpan_elim h with ⟨r, rfl⟩ | ⟨r, rfl⟩
  · obtain ⟨t, ht⟩ := numGo_copy_prefix f "span".data r pw (by decide)
    rw [ht]
    exact tagHeadSpan_of_span t
  · obtain ⟨t, ht⟩ := numGo_copy_prefix f "/span".data r pw (by decide)
    rw [ht]
    exact tagHeadSpan_of_slash_span t

/-! ### Pass 3 (strings) preserves the invariant -/

lemma stringGo_okTag : ∀ (f : Nat) (s : List Char), okTag s = true →
    okTag (stringGo f s) = true := by
  intro f
  induction f with
  | zero => intro s h; exact h
  | succ f ih =>
    intro s hs
    cases s with
    | nil => rfl
    | cons c cs =>
      have hcs : okTag cs = true := (okTagBy_cons_elim hs).2
      unfold stringGo
      split
      · rename_i hq
        split
        · rename_i pr hfc
          exact okTagBy_append tagHeadSpan_mono
            (okTagBy_append tagHeadSpan_mono
              (okTagBy_append tagHeadSpan_mono okTag_greenOpen
                (okTagBy_of_not_mem (escL_not_mem_lt _)))
              okTag_spanClose)
            (ih _ (okTagBy_suffix hcs (findCh_suffix hfc)))
        · have hc : c ≠ '<' := by
            intro rfl_c
            rw [rfl_c] at hq
            exact absurd hq (by decide)
          exact okTagBy_cons_of_ne hc (ih cs hcs)
      · by_cases hc : c = '<'
        · subst hc
          have hth := (okTagBy_lt_elim hs).1
          exact okTagBy_cons_lt (stringGo_tagHead f hth) (ih cs hcs)
        · exact okTagBy_cons_of_ne hc (ih cs hcs)

/-! ### Pass 4 (numbers) preserves the invariant -/

lemma not_mem_lt_digitRun {c : Char} {cs : List Char} (hc : isDigitCh c = true) :
    '<' ∉ (c :: cs.takeWhile isDigitCh) := by
  intro hm
  rcases List.mem_cons.mp hm with h | h
  · rw [← h] at hc
    exact absurd hc (by decide)
  · have := List.mem_takeWhile_imp h
    exact absurd this (by decide)

lemma numGo_okTag : ∀ (f : Nat) (pw : Bool) (s : List Char), okTag s = true →
    okTag (numGo f pw s) = true := by
  intro f
  induction f with
  | zero => intro pw s h; exact h
  | succ f ih =>
    intro pw s hs
    cases s with
    | nil => rfl
    | cons c cs =>
      have hcs : okTag cs = true := (okTagBy_cons_elim hs).2
      have hrun : ∀ {x : List Char}, x <:+ cs → okTag (numGo f true x) = true :=
        fun hx => ih true _ (okTagBy_suffix hcs hx)
      unfold numGo
      split
      · rename_i hdig
        have hcdig : isDigitCh c = true := (Bool.and_eq_true_iff.mp hdig).2
        have hint : '<' ∉ (c :: cs.takeWhile isDigitCh) := not_mem_lt_digitRun hcdig
        have hdw : cs.dropWhile isDigitCh <:+ cs := List.dropWhile_suffix _
        split
        · rename_i hnil
          exact okTagBy_append tagHeadSpan_mono
            (okTagBy_append tagHeadSpan_mono
              (okTagBy_append tagHeadSpan_mono okTag_yellowOpen
                (okTagBy_of_not_mem hint))
              okTag_spanClose)
            (ih true [] rfl)
        · rename_i x r hxr
          have hxrs : x :: r <:+ cs := hxr ▸ hdw
          have hrs : r <:+ cs := List.IsSuffix.trans ⟨[x], rfl⟩ hxrs
          split
          · rename_i hfrac
            dsimp only
            split
            · -- fraction matched with trailing boundary
              have hrest2 : r.dropWhile isDigitCh <:+ cs :=
                List.IsSuffix.trans (List.dropWhile_suffix _) hrs
              have hfracrun : '<' ∉ ((c :: cs.takeWhile isDigitCh) ++ '.' :: r.takeWhile isDigitCh) := by
                intro hm
                rcases List.mem_append.mp hm with h | h
                · exact hint h
                · rcases List.mem_cons.mp h with h | h
                  · exact absurd h (by decide)
                  · exact absurd (List.mem_takeWhile_imp h) (by decide)
              exact okTagBy_append tagHeadSpan_mono
                (okTagBy_append tagHeadSpan_mono
                  (okTagBy_append tagHeadSpan_mono okTag_yellowOpen
                    (okTagBy_of_not_mem hfracrun))
                  okTag_spanClose)
                (hrun hrest2)
            · exact okTagBy_append tagHeadSpan_mono
                (okTagBy_append tagHeadSpan_mono
                  (okTagBy_append tagHeadSpan_mono okTag_yellowOpen
                    (okTagBy_of_not_mem hint))
                  okTag_spanClose)
                (hrun hxrs)
          · split
            · exact okTagBy_append tagHeadSpan_mono
                (okTagBy_append tagHeadSpan_mono
                  (okTagBy_append tagHeadSpan_mono okTag_yellowOpen
                    (okTagBy_of_not_mem hint))
                  okTag_spanClose)
                (hrun hxrs)
            · exact okTagBy_append tagHeadSpan_mono (okTagBy_of_not_mem hint)
                (hrun hxrs)
      · by_cases hc : c = '<'
        · subst hc
          have hth := (okTagBy_lt_elim hs).1
          exact okTagBy_cons_lt (numGo_tagHead f (isWordCh '<') hth) (ih (isWordCh '<') cs hcs)
        · exact okTagBy_cons_of_ne hc (ih (isWordCh c) cs hcs)

/-! ### Pass 5 (keywords) preserves the invariant

`kwGoodB` collects the side conditions on a keyword under which the pass can
never dismantle an inserted tag: the keyword contains no `<`, is not empty,
is not `s` and has no `sp` prefix (so it cannot match the `span` right after
a `<`), and does not start with `/`.  The sole keyword containing `<` is
`<?php`, which can never match at all because a literal `<?` never occurs. -/

lemma kwGo_copy {k : List Char} {f : Nat} {pw : Bool} {c : Char} {cs : List Char}
    (h : kwMatchAt k pw (c :: cs) = false) :
    kwGo k (f + 1) pw (c :: cs) = c :: kwGo k f (isWordCh c) cs := by
  simp [kwGo, h]

lemma kwMatchAt_prefix {k0 : Char} {k1 : List Char} {pw : Bool} {s : List Char}
    (h : kwMatchAt (k0 :: k1) pw s = true) : (k0 :: k1).isPrefixOf s = true := by
  unfold kwMatchAt at h
  simp only [Bool.and_eq_true] at h
  exact h.1.2

lemma kwMatchAt_false_of_pw_word {k : List Char} {c : Char} {cs : List Char}
    (hc : isWordCh c = true) : kwMatchAt k true (c :: cs) = false := by
  cases k with
  | nil => rfl
  | cons k0 k1 =>
    by_cases hk : isWordCh k0 = true
    · simp [kwMatchAt, kwBoundaryBefore, hk]
    · have hne : (k0 == c) = false := by
        cases heq : k0 == c
        · rfl
        · exact absurd (eq_of_beq heq ▸ hc) (by simp [hk])
      simp [kwMatchAt, List.isPrefixOf, hne]

lemma kwMatchAt_sp_false {k : List Char} (hk : kwGoodB k = true) (pw : Bool)
    (rest : List Char) : kwMatchAt k pw ('s' :: 'p' :: rest) = false := by
  rw [kwGoodB, Bool.or_eq_true] at hk
  rcases hk with hk | hk
  · simp only [Bool.and_eq_true] at hk
    obtain ⟨⟨⟨⟨_, hne⟩, hsng⟩, hsp⟩, _⟩ := hk
    have hpre : k.isPrefixOf ('s' :: 'p' :: rest) = false := by
      cases k with
      | nil => simp at hne
      | cons k0 k1 =>
        by_cases h0 : k0 = 's'
        · subst h0
          cases k1 with
          | nil => simp at hsng
          | cons k2 k3 =>
            by_cases h2 : k2 = 'p'
            · subst h2
              exact absurd hsp (by simp [List.isPrefixOf])
            · have hne2 : (k2 == 'p') = false := by
                cases heq : k2 == 'p'
                · rfl
                · exact absurd (eq_of_beq heq) h2
              simp [List.isPrefixOf, hne2]
        · have hne0 : (k0 == 's') = false := by
            cases heq : k0 == 's'
            · rfl
            · exact absurd (eq_of_beq heq) h0
          simp [List.isPrefixOf, hne0]
    cases k with
    | nil => rfl
    | cons k0 k1 => simp [kwMatchAt, hpre]
  · rw [beq_iff_eq] at hk
    subst hk
    have e1 : (('<' : Char) == 's') = false := by decide
    simp [kwMatchAt, List.isPrefixOf, e1]

lemma kwMatchAt_slash_false (k : List Char) (rest : List Char) :
    kwMatchAt k false ('/' :: rest) = false := by
  cases k with
  | nil => rfl
  | cons k0 k1 =>
    by_cases h0 : k0 = '/'
    · subst h0
      have e1 : isWordCh '/' = false := by decide
      simp [kwMatchAt, kwBoundaryBefore, e1]
    · have hne : (k0 == '/') = false := by
        cases heq : k0 == '/'
        · rfl
        · exact absurd (eq_of_beq heq) h0
      simp [kwMatchAt, List.isPrefixOf, hne]

lemma kwMatchAt_lt_false {k : List Char} (hk : kwGoodB k = true) {cs : List Char}
    (hth : tagHeadSpan cs = true) (pw : Bool) :
    kwMatchAt k pw ('<' :: cs) = false := by
  rw [kwGoodB, Bool.or_eq_true] at hk
  rcases hk with hk | hk
  · simp only [Bool.and_eq_true] at hk
    obtain ⟨⟨⟨⟨hall, _⟩, _⟩, _⟩, _⟩ := hk
    cases k with
    | nil => rfl
    | cons k0 k1 =>
      have h0 : (k0 == '<') = false := by
        have hh := List.all_eq_true.mp hall k0 (List.mem_cons_self _ _)
        simpa using hh
      simp [kwMatchAt, List.isPrefixOf, h0]
  · rw [beq_iff_eq] at hk
    subst hk
    rcases tagHeadSpan_elim hth with ⟨r, rfl⟩ | ⟨r, rfl⟩
    · have e1 : (('?' : Char) == 's') = false := by decide
      simp [kwMatchAt, List.isPrefixOf, e1]
    · have e1 : (('?' : Char) == '/') = false := by decide
      simp [kwMatchAt, List.isPrefixOf, e1]

lemma kwGo_word_run (k : List Char) : ∀ (f : Nat) (w r : List Char),
    (∀ c ∈ w, isWordCh c = true) → ∃ t, kwGo k f true (w ++ r) = w ++ t := by
  intro f
  induction f with
  | zero => intro w r _; exact ⟨r, rfl⟩
  | succ f ih =>
    intro w r hw
    cases w with
    | nil => exact ⟨kwGo k (f + 1) true r, rfl⟩
    | cons c cs =>
      rw [List.cons_append,
        kwGo_copy (kwMatchAt_false_of_pw_word (hw c (List.mem_cons_self c cs))),
        hw c (List.mem_cons_self c cs)]
      obtain ⟨t, ht⟩ := ih cs r (fun x hx => hw x (List.mem_cons_of_mem c hx))
      exact ⟨t, by rw [ht, List.cons_append]⟩

lemma kwGo_tagHead {k : List Char} (hk : kwGoodB k = true) (f : Nat) {cs : List Char}
    (h : tagHeadSpan cs = true) : tagHeadSpan (kwGo k f false cs) = true := by
  rcases tagHeadSpan_elim h with ⟨r, rfl⟩ | ⟨r, rfl⟩
  · cases f with
    | zero => exact tagHeadSpan_of_span r
    | succ f1 =>
      rw [show ("span".data ++ r) = 's' :: 'p' :: 'a' :: 'n' :: r from rfl,
        kwGo_copy (kwMatchAt_sp_false hk false _),
        show isWordCh 's' = true from by decide]
      obtain ⟨t, ht⟩ := kwGo_word_run k f1 ['p', 'a', 'n'] r (by decide)
      rw [show ('p' :: 'a' :: 'n' :: r) = ['p', 'a', 'n'] ++ r from rfl, ht]
      exact tagHeadSpan_of_span t
  · cases f with
    | zero => exact tagHeadSpan_of_slash_span r
    | succ f1 =>
      rw [show ("/span".data ++ r) = '/' :: 's' :: 'p' :: 'a' :: 'n' :: r from rfl,
        kwGo_copy (kwMatchAt_slash_false k _),
        show isWordCh '/' = false from by decide]
      cases f1 with
      | zero => exact tagHeadSpan_of_slash_span r
      | succ f2 =>
        rw [kwGo_copy (kwMatchAt_sp_false hk false _),
          show isWordCh 's' = true from by decide]
        obtain ⟨t, ht⟩ := kwGo_word_run k f2 ['p', 'a', 'n'] r (by decide)
        rw [show ('p' :: 'a' :: 'n' :: r) = ['p', 'a', 'n'] ++ r from rfl, ht]
        exact tagHeadSpan_of_slash_span t

lemma kwGo_okTag {k : List Char} (hk : kwGoodB k = true) :
    ∀ (f : Nat) (pw : Bool) (s : List Char), okTag s = true →
    okTag (kwGo k f pw s) = true := by
  intro f
  induction f with
  | zero => intro pw s h; exact h
  | succ f ih =>
    intro pw s hs
    cases s with
    | nil => rfl
    | cons c cs =>
      have hcs := (okTagBy_cons_elim hs).2
      unfold kwGo
      split
      · rename_i hm
        have hklt : '<' ∉ k := by
          have hk2 := hk
          rw [kwGoodB, Bool.or_eq_true] at hk2
          rcases hk2 with hk2 | hk2
          · simp only [Bool.and_eq_true] at hk2
            obtain ⟨⟨⟨⟨hall, _⟩, _⟩, _⟩, _⟩ := hk2
            intro hmem
            have hh := List.all_eq_true.mp hall '<' hmem
            simp at hh
          · exfalso
            rw [beq_iff_eq] at hk2
            subst hk2
            have hpre : ("<?php".data).isPrefixOf (c :: cs) = true := kwMatchAt_prefix hm
            rw [List.isPrefixOf_iff_prefix] at hpre
            obtain ⟨t, ht⟩ := hpre
            have ht2 : '<' :: '?' :: 'p' :: 'h' :: 'p' :: t = c :: cs := ht
            have hc : c = '<' := by
              injection ht2 with h1 _
              exact h1.symm
            have hcs2 : cs = '?' :: 'p' :: 'h' :: 'p' :: t := by
              injection ht2 with _ h2
              exact h2.symm
            subst hc
            have hth := (okTagBy_lt_elim hs).1
            rw [hcs2] at hth
            have e1 : (('s' : Char) == '?') = false := by decide
            have e2 : (('/' : Char) == '?') = false := by decide
            simp [tagHeadSpan, List.isPrefixOf, e1, e2] at hth
        exact okTagBy_append tagHeadSpan_mono
          (okTagBy_append tagHeadSpan_mono
            (okTagBy_append tagHeadSpan_mono okTag_purpleOpen
              (okTagBy_of_not_mem hklt))
            okTag_spanClose)
          (ih _ _ (okTagBy_suffix hs (List.drop_suffix _ _)))
      · by_cases hc : c = '<'
        · subst hc
          have hth := (okTagBy_lt_elim hs).1
          rw [show isWordCh '<' = false from by decide]
          exact okTagBy_cons_lt (kwGo_tagHead hk f hth) (ih false cs hcs)
        · exact okTagBy_cons_of_ne hc (ih (isWordCh c) cs hcs)

lemma foldl_kwGo_okTag : ∀ (ks : List (List Char)) (s : List Char),
    (∀ k ∈ ks, kwGoodB k = true) → okTag s = true →
    okTag (ks.foldl (fun h k => kwGo k (h.length + 1) false h) s) = true := by
  intro ks
  induction ks with
  | nil => intro s _ hs; exact hs
  | cons k ks ih =>
    intro s hall hs
    exact ih _ (fun x hx => hall x (List.mem_cons_of_mem k hx))
      (kwGo_okTag (hall k (List.mem_cons_self k ks)) _ _ _ hs)

lemma allKeywords_good (lang : String) : ∀ k ∈ allKeywords lang, kwGoodB k = true := by
  unfold allKeywords langKws
  split_ifs <;> decide

/-! ### Assembling the invariant over the whole pipeline -/

lemma highlight_okTagWrap (text : List Char) (lang : String) :
    okTagWrap (highlightCode text lang) = true := by
  unfold highlightCode
  split
  · decide
  · refine okTagBy_append tagHeadWrap_mono
      (okTagBy_append tagHeadWrap_mono (by decide) ?_) (by decide)
    apply okTag_imp_wrap
    apply foldl_kwGo_okTag _ _ (allKeywords_good lang)
    apply numGo_okTag
    apply stringGo_okTag
    exact commentGo_okTag _ _ (escL_not_mem_lt text)

lemma no_sc_of_okTagWrap : ∀ {s : List Char}, okTagWrap s = true →
    containsSeq ['<', 's', 'c'] s = false := by
  intro s
  induction s with
  | nil => intro _; rfl
  | cons c cs ih =>
    intro h
    obtain ⟨h1, h2⟩ := okTagBy_cons_elim h
    unfold containsSeq
    rw [Bool.or_eq_false_iff]
    refine ⟨?_, ih h2⟩
    by_cases hc : c = '<'
    · subst hc
      have hth : tagHeadWrap cs = true := by simpa using h1
      have hsc : (['s', 'c'] : List Char).isPrefixOf cs = false := by
        unfold tagHeadWrap tagHeadSpan at hth
        simp only [Bool.or_eq_true, List.isPrefixOf_iff_prefix] at hth
        rcases hth with ((((h | h) | h) | h) | h) | h <;>
          · obtain ⟨r, rfl⟩ := h
            simp [List.isPrefixOf]
      simp [List.isPrefixOf, hsc]
    · have hne : (('<' : Char) == c) = false := by
        cases heq : ('<' : Char) == c
        · rfl
        · exact absurd (eq_of_beq heq).symm hc
      simp [List.isPrefixOf, hne]

lemma containsSeq_iff_infix (p : List Char) : ∀ s : List Char,
    containsSeq p s = true ↔ p <:+: s := by
  intro s
  induction s with
  | nil =>
    unfold containsSeq
    rw [List.isPrefixOf_iff_prefix, List.infix_nil, List.prefix_nil]
  | cons c cs ih =>
    unfold containsSeq
    rw [Bool.or_eq_true, List.isPrefixOf_iff_prefix, ih]
    constructor
    · rintro (h | h)
      · exact h.isInfix
      · exact List.infix_cons h
    · rintro ⟨a, t, hat⟩
      cases a with
      | nil => exact Or.inl ⟨t, by simpa using hat⟩
      | cons x a2 =>
        right
        rw [List.cons_append, List.cons_append] at hat
        injection hat with _ h2
        exact ⟨a2, t, h2⟩

/-- C3.  If the input contains the substring `<script>`, the highlighter's
output never contains `<script>` at all: step 1 escapes every `<` and `>` of
the input, and afterwards every literal `<` of the working string opens one
of the inserted `<span ...>`/`</span>`/`<pre ...>`/`<code>` tags (the
`okTagWrap` invariant), none of which continues with `sc`. -/
theorem highlighter_never_unescapes_script (text : List Char) (lang : String)
    (_hin : containsSeq "<script>".data text = true) :
    ¬ ("<script>".data <:+: highlightCode text lang)
    ∧ okTagWrap (highlightCode text lang) = true := by
  refine ⟨?_, highlight_okTagWrap text lang⟩
  intro hinf
  have hsub : (['<', 's', 'c'] : List Char) <:+: "<script>".data :=
    ⟨[], "ript>".data, by decide⟩
  have hsc : (['<', 's', 'c'] : List Char) <:+: highlightCode text lang :=
    hsub.trans hinf
  rw [← containsSeq_iff_infix] at hsc
  rw [no_sc_of_okTagWrap (highlight_okTagWrap text lang)] at hsc
  exact absurd hsc (by decide)

/-- C3 witness: a concrete attacking input. -/
theorem highlighter_never_unescapes_script_witness :
    containsSeq "<script>".data "<script>alert(1)</script>".data = true
    ∧ ¬ ("<script>".data <:+:
        highlightCode "<script>alert(1)</script>".data "javascript") :=
  ⟨by decide,
    (highlighter_never_unescapes_script "<script>alert(1)</script>".data "javascript"
      (by decide)).1⟩

set_option maxRecDepth 20000 in
/-- C2 (code bug).  Removing all inserted markup from the highlighter's
output does not recover the HTML-escaping of the input.  At the input `"&"`
(quote, ampersand, quote) the string pass wraps the already-escaped text and
re-escapes it, so the output contains the double-escaped `&amp;amp;`, and the
stripped output differs from `escL` of the input — contradicting the spec's
Token invariant, which the spec itself asks to preserve (its §4.5 hazard note
calls this sequential-substitution behaviour a bug to be fixed by a one-pass
tokenizer). -/
theorem strip_markup_roundtrip_fails :
    stripInsertedMarkup (highlightCode "\"&\"".data "java") ≠ escL "\"&\"".data
    ∧ containsSeq "&amp;amp;".data (highlightCode "\"&\"".data "java") = true :=
  ⟨by decide, by decide⟩

end CodeAnalysis
